import Mathlib

/-!
Shallow embedding of the PERT scheduling engine of this repository.

Source of truth: the React component holding the scheduling logic
(function calculatePERT and function createNodesAndEdges).  JavaScript
numbers are modelled as rationals; JavaScript arrays as lists.  The
source mutates an array of PERT activities in place while iterating it
with forEach; this is modelled by a fold that rewrites one position per
step, so that each step reads the partially updated list exactly as the
source does (stale initial zeros included).
-/

namespace PERT

/-- Input record, mirroring the exported Activity interface of the table
component: an id, a display name (field called activity), predecessor
names, the three time estimates and the derived mean and variance. -/
structure Activity where
  id : String
  activity : String
  predecessors : List String
  optimisticTime : ℚ
  mostLikelyTime : ℚ
  pessimisticTime : ℚ
  mean : ℚ
  variance : ℚ
deriving DecidableEq

/-- Schedule record, mirroring the PERTActivity interface: an Activity
extended with earliest/latest start/finish and the criticality flag. -/
structure PERTActivity extends Activity where
  es : ℚ
  ef : ℚ
  ls : ℚ
  lf : ℚ
  isCritical : Bool
deriving DecidableEq

/-- Mean formula of the table component: (optimistic + 4 mostLikely + pessimistic) / 6. -/
def calculateMean (a : Activity) : ℚ :=
  (a.optimisticTime + 4 * a.mostLikelyTime + a.pessimisticTime) / 6

/-- Variance formula of the table component: ((pessimistic - optimistic) / 6) squared. -/
def calculateVariance (a : Activity) : ℚ :=
  ((a.pessimisticTime - a.optimisticTime) / 6) ^ 2

/-- Binary maximum on rationals, written out so that it evaluates inside
the kernel. -/
def qmax (x y : ℚ) : ℚ := if x ≤ y then y else x

/-- Binary minimum on rationals, written out so that it evaluates inside
the kernel. -/
def qmin (x y : ℚ) : ℚ := if x ≤ y then x else y

/-- Absolute value of Math.abs, written out so that it evaluates inside
the kernel. -/
def jsAbs (x : ℚ) : ℚ := if x < 0 then -x else x

/-- Spread of Math.max over a list.  The source only ever applies it to a
nonempty list, except for the overall maximum earliest finish of an empty
project, a value that then flows nowhere; the empty case (JavaScript
minus infinity) is therefore modelled by an arbitrary constant. -/
def jsMax : List ℚ → ℚ
  | [] => 0
  | x :: xs => xs.foldl qmax x

/-- Spread of Math.min over a list; same remark as for jsMax. -/
def jsMin : List ℚ → ℚ
  | [] => 0
  | x :: xs => xs.foldl qmin x

/-- Name resolution used by the forward pass and the edge builder:
Array.prototype.find over the working list, exact string match on the
activity (name) field.  Returns the first match in list order. -/
def resolve (l : List PERTActivity) (name : String) : Option PERTActivity :=
  l.find? (fun b => b.activity == name)

/-- Contribution of one predecessor name inside the forward pass: the
earliest finish of the resolved activity, or 0 when the name resolves to
no activity in the working list. -/
def predEF (l : List PERTActivity) (name : String) : ℚ :=
  match resolve l name with
  | some b => b.ef
  | none => 0

/-- One in-place update at index i of the working list: read the current
list, rewrite position i from it.  Models one forEach iteration of the
source, which mutates the visited element using the current array. -/
def passUpd (f : List PERTActivity → PERTActivity → PERTActivity)
    (l : List PERTActivity) (i : Nat) : List PERTActivity :=
  match l.get? i with
  | some a => l.set i (f l a)
  | none => l

/-- A full forEach pass: positions 0, 1, ... are rewritten in order, each
from the list as left by the previous steps. -/
def runPass (f : List PERTActivity → PERTActivity → PERTActivity)
    (l : List PERTActivity) : List PERTActivity :=
  (List.range l.length).foldl (passUpd f) l

/-- Body of one forward-pass iteration: es is 0 for an empty predecessor
list and otherwise the maximum of the (possibly stale) earliest finishes
the predecessor names currently resolve to; ef is es + mean. -/
def fwdF (l : List PERTActivity) (a : PERTActivity) : PERTActivity :=
  let es := if a.predecessors.isEmpty then 0
            else jsMax (a.predecessors.map (predEF l))
  { a with es := es, ef := es + a.mean }

/-- Body of one backward-pass iteration: lf is the global maximum earliest
finish when no activity of the working list names this one as predecessor,
and otherwise the minimum of the (possibly stale) latest starts of the
activities that do; ls is lf - mean. -/
def bwdF (maxEF : ℚ) (l : List PERTActivity) (a : PERTActivity) : PERTActivity :=
  let lf := if l.all (fun b => !(b.predecessors.contains a.activity)) then maxEF
            else jsMin ((l.filter (fun b => b.predecessors.contains a.activity)).map
                        (fun b => b.ls))
  { a with lf := lf, ls := lf - a.mean }

/-- Body of one criticality iteration: critical iff both slacks are below
the absolute tolerance 0.001 used by the source. -/
def critF (a : PERTActivity) : PERTActivity :=
  { a with isCritical :=
      decide (jsAbs (a.es - a.ls) < (1 : ℚ)/1000) &&
      decide (jsAbs (a.ef - a.lf) < (1 : ℚ)/1000) }

/-- The scheduling engine, translated from function calculatePERT: copy the
input into zero-initialised PERT records, run the forward pass in list
order, take the maximum earliest finish, reverse the working array in
place, run the backward pass over the reversed array, then set the
criticality flags.  The reversed array is what the source returns. -/
def calculatePERT (activities : List Activity) : List PERTActivity :=
  let pertActivities : List PERTActivity :=
    activities.map (fun a =>
      { toActivity := a, es := 0, ef := 0, ls := 0, lf := 0, isCritical := false })
  let fwd := runPass fwdF pertActivities
  let maxEF := jsMax (fwd.map (fun a => a.ef))
  let bwd := runPass (bwdF maxEF) fwd.reverse
  bwd.map critF

/-- Index of the first activity whose name matches, on the raw input list;
used to phrase the dependency graph of the specification. -/
def findIdxName (l : List Activity) (name : String) : Option Nat :=
  l.findIdx? (fun b => b.activity == name)

/-- Resolved dependency edge of the specification's graph builder, on
input indices: position j lists a predecessor name whose first match in
list order sits at position i. -/
def depEdgeB (l : List Activity) (i j : Nat) : Bool :=
  match l.get? j with
  | some a => a.predecessors.any (fun p => findIdxName l p == some i)
  | none => false

/-- Bounded reachability along resolved dependency edges: a path of at
most k+1 edges from i to j. -/
def reachesWithin (l : List Activity) : Nat → Nat → Nat → Bool
  | 0, i, j => depEdgeB l i j
  | k+1, i, j =>
      depEdgeB l i j ||
      (List.range l.length).any (fun m => depEdgeB l i m && reachesWithin l k m j)

/-- Acyclicity of the resolved dependency graph: no node reaches itself
along resolved predecessor edges (paths of length up to the list length
suffice to witness any cycle). -/
def acyclicB (l : List Activity) : Bool :=
  (List.range l.length).all (fun i => !reachesWithin l l.length i i)

/-- Convenience builder for concrete inputs: all three estimates equal to
the mean, so that the derived mean and variance fields are consistent
with the estimate formulas. -/
def mkAct (id name : String) (preds : List String) (m : ℚ) : Activity :=
  ⟨id, name, preds, m, m, m, m, 0⟩

/-- Output node of the graph assembly: its id and the criticality mark
(the source styles a node with a red border exactly when the underlying
activity is critical; start and end carry no mark).  The display label is
presentation-only text and is not modelled. -/
structure GNode where
  nid : String
  critical : Bool
deriving DecidableEq

/-- Output edge of the graph assembly: its id, source node id, target
node id, and the criticality mark (the source sets animated and a red
stroke under exactly the same condition; the label is presentation-only
text and is not modelled). -/
structure GEdge where
  eid : String
  src : String
  tgt : String
  animated : Bool
deriving DecidableEq

/-- Graph assembly, translated from function createNodesAndEdges: a start
node, one node per scheduled activity, an end node; for each activity
either one edge per resolved predecessor name (animated when both
endpoints are critical) or, when its predecessor list is empty, an edge
from start (animated when the activity is critical); then one edge to end
for every activity that no activity of the schedule names as predecessor
(animated when the activity is critical). -/
def createNodesAndEdges (activities : List Activity) : List GNode × List GEdge :=
  let p := calculatePERT activities
  let nodes : List GNode :=
    ⟨"start", false⟩ :: (p.map (fun a => ⟨a.id, a.isCritical⟩) ++ [⟨"end", false⟩])
  let depEdges : List GEdge := p.flatMap (fun a =>
    if a.predecessors.isEmpty then
      [⟨"start-" ++ a.id, "start", a.id, a.isCritical⟩]
    else
      a.predecessors.filterMap (fun pred =>
        (resolve p pred).map (fun s =>
          ⟨s.id ++ "-" ++ a.id, s.id, a.id, a.isCritical && s.isCritical⟩)))
  let endEdges : List GEdge := p.filterMap (fun a =>
    if p.all (fun b => !(b.predecessors.contains a.activity)) then
      some ⟨a.id ++ "-end", a.id, "end", a.isCritical⟩
    else none)
  (nodes, depEdges ++ endEdges)

/-- The zero-initialised working list the engine starts from. -/
def initPA (l : List Activity) : List PERTActivity :=
  l.map (fun a =>
    { toActivity := a, es := 0, ef := 0, ls := 0, lf := 0, isCritical := false })

/-- Working list after the full forward pass. -/
def fwdList (l : List Activity) : List PERTActivity := runPass fwdF (initPA l)

/-- The overall maximum earliest finish the backward pass starts from. -/
def maxEFv (l : List Activity) : ℚ := jsMax ((fwdList l).map (fun a => a.ef))

/-- The working list the backward pass iterates: the forward result,
reversed in place. -/
def revList (l : List Activity) : List PERTActivity := (fwdList l).reverse

/-- Working list after the full backward pass. -/
def bwdList (l : List Activity) : List PERTActivity :=
  runPass (bwdF (maxEFv l)) (revList l)

/-- Working list after the first n steps of a pass. -/
def stepFold (f : List PERTActivity → PERTActivity → PERTActivity)
    (l : List PERTActivity) (n : Nat) : List PERTActivity :=
  (List.range n).foldl (passUpd f) l

/-- Intermediate state of the forward pass just before step k. -/
def fstate (l : List Activity) (k : Nat) : List PERTActivity :=
  stepFold fwdF (initPA l) k

/-- Intermediate state of the backward pass just before step k. -/
def bstate (l : List Activity) (k : Nat) : List PERTActivity :=
  stepFold (bwdF (maxEFv l)) (revList l) k

/-- Two-activity cycle A before B, each naming the other as predecessor. -/
def cycIn : List Activity := [mkAct "1" "A" ["B"] 1, mkAct "2" "B" ["A"] 1]

/-- Acyclic two-activity chain listed against dependency order: the
successor B first, its predecessor A (mean 5) second. -/
def negSlackIn : List Activity := [mkAct "1" "B" ["A"] 1, mkAct "2" "A" [] 5]

/-- Acyclic two-activity chain listed against dependency order: the
successor B first, its predecessor A (mean 2) second. -/
def staleIn : List Activity := [mkAct "1" "B" ["A"] 1, mkAct "2" "A" [] 2]

/-- Duplicate-name input: two activities named X, the second depending on
Y, and Y depending on X; the resolved dependency graph (first-match
resolution) is the acyclic chain X1 to Y to X2. -/
def dupIn : List Activity :=
  [mkAct "1" "X" [] 1, mkAct "2" "X" ["Y"] 1, mkAct "3" "Y" ["X"] 1]

/-- The diamond scenario of the specification: A feeds B and C, which
both feed D, with means 1, 2, 3, 1, listed in order A, B, C, D. -/
def diamondIn : List Activity :=
  [mkAct "1" "A" [] 1, mkAct "2" "B" ["A"] 2, mkAct "3" "C" ["A"] 3,
   mkAct "4" "D" ["B", "C"] 1]

/-- Small chain input used to instantiate the invariant claims. -/
def invIn : List Activity := [mkAct "1" "A" [] 2, mkAct "2" "B" ["A"] 3]

/-- One activity whose only predecessor name matches nothing. -/
def dangIn : List Activity := [mkAct "1" "A" ["Z"] 1]

/-- Chain input used to instantiate the graph-assembly claim. -/
def graphIn : List Activity := [mkAct "1" "A" [] 1, mkAct "2" "B" ["A"] 1]

/-! Order facts about the spread maximum and minimum. -/

theorem le_qmax_left (x y : ℚ) : x ≤ qmax x y := by
  by_cases h : x ≤ y
  · simp [qmax, h]
  · simp [qmax, h]

theorem le_qmax_right (x y : ℚ) : y ≤ qmax x y := by
  by_cases h : x ≤ y
  · simp [qmax, h]
  · simp [qmax, h]; exact le_of_not_le h

theorem qmax_cases (x y : ℚ) : qmax x y = x ∨ qmax x y = y := by
  by_cases h : x ≤ y <;> simp [qmax, h]

theorem qmin_le_left (x y : ℚ) : qmin x y ≤ x := by
  by_cases h : x ≤ y
  · simp [qmin, h]
  · simp [qmin, h]; exact le_of_not_le h

theorem qmin_le_right (x y : ℚ) : qmin x y ≤ y := by
  by_cases h : x ≤ y
  · simp [qmin, h]
  · simp [qmin, h]

theorem le_foldl_qmax_init : ∀ (xs : List ℚ) (x : ℚ), x ≤ xs.foldl qmax x
  | [], x => le_refl x
  | y :: ys, x => le_trans (le_qmax_left x y) (le_foldl_qmax_init ys (qmax x y))

theorem le_foldl_qmax_mem :
    ∀ (xs : List ℚ) (x z : ℚ), z ∈ xs → z ≤ xs.foldl qmax x
  | y :: ys, x, z, hz => by
      rcases List.mem_cons.mp hz with h | h
      · subst h
        exact le_trans (le_qmax_right x z) (le_foldl_qmax_init ys (qmax x z))
      · exact le_foldl_qmax_mem ys (qmax x y) z h

theorem foldl_qmax_mem :
    ∀ (xs : List ℚ) (x : ℚ), xs.foldl qmax x = x ∨ xs.foldl qmax x ∈ xs
  | [], x => Or.inl rfl
  | y :: ys, x => by
      simp only [List.foldl_cons]
      rcases foldl_qmax_mem ys (qmax x y) with h | h
      · rcases qmax_cases x y with h2 | h2
        · left; rw [h, h2]
        · right; rw [h, h2]; exact List.mem_cons_self y ys
      · right; exact List.mem_cons_of_mem _ h

theorem foldl_qmin_le_init : ∀ (xs : List ℚ) (x : ℚ), xs.foldl qmin x ≤ x
  | [], x => le_refl x
  | y :: ys, x => le_trans (foldl_qmin_le_init ys (qmin x y)) (qmin_le_left x y)

theorem foldl_qmin_le_mem :
    ∀ (xs : List ℚ) (x z : ℚ), z ∈ xs → xs.foldl qmin x ≤ z
  | y :: ys, x, z, hz => by
      rcases List.mem_cons.mp hz with h | h
      · subst h
        exact le_trans (foldl_qmin_le_init ys (qmin x z)) (qmin_le_right x z)
      · exact foldl_qmin_le_mem ys (qmin x y) z h

theorem le_jsMax {xs : List ℚ} {z : ℚ} (h : z ∈ xs) : z ≤ jsMax xs := by
  cases xs with
  | nil => cases h
  | cons y ys =>
      rcases List.mem_cons.mp h with h1 | h1
      · subst h1; exact le_foldl_qmax_init ys z
      · exact le_foldl_qmax_mem ys y z h1

theorem jsMax_mem {xs : List ℚ} (h : xs ≠ []) : jsMax xs ∈ xs := by
  cases xs with
  | nil => exact absurd rfl h
  | cons y ys =>
      show ys.foldl qmax y ∈ y :: ys
      rcases foldl_qmax_mem ys y with h1 | h1
      · rw [h1]; exact List.mem_cons_self y ys
      · exact List.mem_cons_of_mem _ h1

theorem jsMax_eq_of {xs : List ℚ} {m : ℚ} (hm : m ∈ xs)
    (hub : ∀ x ∈ xs, x ≤ m) : jsMax xs = m := by
  have h1 : xs ≠ [] := by intro h; rw [h] at hm; cases hm
  exact le_antisymm (hub _ (jsMax_mem h1)) (le_jsMax hm)

theorem jsMax_reverse (xs : List ℚ) : jsMax xs.reverse = jsMax xs := by
  by_cases h : xs = []
  · rw [h]; rfl
  · refine jsMax_eq_of ?_ ?_
    · rw [List.mem_reverse]; exact jsMax_mem h
    · intro x hxm; exact le_jsMax (List.mem_reverse.mp hxm)

theorem jsMin_le {xs : List ℚ} {z : ℚ} (h : z ∈ xs) : jsMin xs ≤ z := by
  cases xs with
  | nil => cases h
  | cons y ys =>
      rcases List.mem_cons.mp h with h1 | h1
      · subst h1; exact foldl_qmin_le_init ys z
      · exact foldl_qmin_le_mem ys y z h1

/-! Structure of a forEach pass: one step rewrites exactly its own
position from the current state; positions keep their value from the
moment they were rewritten, stay initial until then, and the whole pass
preserves length and every field its body does not touch. -/

theorem length_passUpd (f : List PERTActivity → PERTActivity → PERTActivity)
    (l : List PERTActivity) (i : Nat) : (passUpd f l i).length = l.length := by
  unfold passUpd
  cases h : l.get? i
  · rfl
  · simp [List.length_set]

theorem passUpd_get?_of_ne (f : List PERTActivity → PERTActivity → PERTActivity)
    (l : List PERTActivity) {i j : Nat} (h : i ≠ j) :
    (passUpd f l i).get? j = l.get? j := by
  unfold passUpd
  cases hg : l.get? i
  · rfl
  · exact List.get?_set_ne _ _ h

theorem passUpd_get?_self (f : List PERTActivity → PERTActivity → PERTActivity)
    (l : List PERTActivity) {i : Nat} {a : PERTActivity} (h : l.get? i = some a) :
    (passUpd f l i).get? i = some (f l a) := by
  unfold passUpd
  rw [h, List.get?_set_eq, h]
  rfl

theorem stepFold_zero (f : List PERTActivity → PERTActivity → PERTActivity)
    (l : List PERTActivity) : stepFold f l 0 = l := rfl

theorem stepFold_succ (f : List PERTActivity → PERTActivity → PERTActivity)
    (l : List PERTActivity) (n : Nat) :
    stepFold f l (n + 1) = passUpd f (stepFold f l n) n := by
  unfold stepFold
  rw [List.range_succ, List.foldl_append]
  rfl

theorem length_stepFold (f : List PERTActivity → PERTActivity → PERTActivity)
    (l : List PERTActivity) (n : Nat) : (stepFold f l n).length = l.length := by
  induction n with
  | zero => rfl
  | succ n ih => rw [stepFold_succ, length_passUpd, ih]

theorem stepFold_get?_of_le (f : List PERTActivity → PERTActivity → PERTActivity)
    (l : List PERTActivity) {n j : Nat} (h : n ≤ j) :
    (stepFold f l n).get? j = l.get? j := by
  induction n with
  | zero => rfl
  | succ n ih =>
      rw [stepFold_succ, passUpd_get?_of_ne f _ (Nat.ne_of_lt h)]
      exact ih (Nat.le_of_succ_le h)

theorem stepFold_get?_stable (f : List PERTActivity → PERTActivity → PERTActivity)
    (l : List PERTActivity) {k n j : Nat} (hjk : j < k) (hkn : k ≤ n) :
    (stepFold f l n).get? j = (stepFold f l k).get? j := by
  induction n with
  | zero => rw [Nat.le_zero.mp hkn]
  | succ n ih =>
      by_cases h : k ≤ n
      · rw [stepFold_succ,
          passUpd_get?_of_ne f _ (Nat.ne_of_gt (Nat.lt_of_lt_of_le hjk h)), ih h]
      · have : k = n + 1 := Nat.le_antisymm hkn (Nat.not_le.mp h)
        rw [this]

theorem stepFold_get?_turn (f : List PERTActivity → PERTActivity → PERTActivity)
    (l : List PERTActivity) {i n : Nat} {a : PERTActivity}
    (hin : i < n) (h : l.get? i = some a) :
    (stepFold f l n).get? i = some (f (stepFold f l i) a) := by
  have h1 : (stepFold f l i).get? i = some a := by
    rw [stepFold_get?_of_le f l (le_refl i)]; exact h
  have h2 : (stepFold f l (i + 1)).get? i = some (f (stepFold f l i) a) := by
    rw [stepFold_succ]; exact passUpd_get?_self f _ h1
  rw [stepFold_get?_stable f l (Nat.lt_succ_self i) hin, h2]

theorem length_runPass (f : List PERTActivity → PERTActivity → PERTActivity)
    (l : List PERTActivity) : (runPass f l).length = l.length :=
  length_stepFold f l l.length

theorem runPass_get? (f : List PERTActivity → PERTActivity → PERTActivity)
    {l : List PERTActivity} {i : Nat} {a : PERTActivity} (h : l.get? i = some a) :
    (runPass f l).get? i = some (f (stepFold f l i) a) := by
  have hi : i < l.length := by
    rcases List.get?_eq_some.mp h with ⟨hh, _⟩; exact hh
  exact stepFold_get?_turn f l hi h

theorem stepFold_get?_field {β : Type} (f : List PERTActivity → PERTActivity → PERTActivity)
    (g : PERTActivity → β) (hg : ∀ s a, g (f s a) = g a)
    (l : List PERTActivity) (n j : Nat) :
    ((stepFold f l n).get? j).map g = (l.get? j).map g := by
  rcases Nat.lt_or_ge j n with h | h
  · cases hl : l.get? j with
    | none =>
        have h0 : l.length ≤ j := List.get?_eq_none.mp hl
        have h1 : (stepFold f l n).get? j = none :=
          List.get?_eq_none.mpr (by rw [length_stepFold]; exact h0)
        simp only [h1, hl]
    | some a => rw [stepFold_get?_turn f l h hl]; simp [hg]
  · rw [stepFold_get?_of_le f l h]

theorem runPass_get?_field {β : Type} (f : List PERTActivity → PERTActivity → PERTActivity)
    (g : PERTActivity → β) (hg : ∀ s a, g (f s a) = g a)
    (l : List PERTActivity) (j : Nat) :
    ((runPass f l).get? j).map g = (l.get? j).map g :=
  stepFold_get?_field f g hg l l.length j

theorem runPass_map_field {β : Type} (f : List PERTActivity → PERTActivity → PERTActivity)
    (g : PERTActivity → β) (hg : ∀ s a, g (f s a) = g a)
    (l : List PERTActivity) : (runPass f l).map g = l.map g := by
  apply List.ext_get?
  intro n
  rw [List.get?_map, List.get?_map, runPass_get?_field f g hg]

/-! Which fields each pass body touches. -/

theorem fwdF_toActivity (s : List PERTActivity) (a : PERTActivity) :
    (fwdF s a).toActivity = a.toActivity := rfl

theorem bwdF_toActivity (m : ℚ) (s : List PERTActivity) (a : PERTActivity) :
    (bwdF m s a).toActivity = a.toActivity := rfl

theorem critF_toActivity (a : PERTActivity) : (critF a).toActivity = a.toActivity := rfl

theorem bwdF_es (m : ℚ) (s : List PERTActivity) (a : PERTActivity) :
    (bwdF m s a).es = a.es := rfl

theorem bwdF_ef (m : ℚ) (s : List PERTActivity) (a : PERTActivity) :
    (bwdF m s a).ef = a.ef := rfl

theorem critF_es (a : PERTActivity) : (critF a).es = a.es := rfl

theorem critF_ef (a : PERTActivity) : (critF a).ef = a.ef := rfl

theorem critF_ls (a : PERTActivity) : (critF a).ls = a.ls := rfl

theorem critF_lf (a : PERTActivity) : (critF a).lf = a.lf := rfl

theorem fwdF_es_eq (s : List PERTActivity) (a : PERTActivity) :
    (fwdF s a).es =
      if a.predecessors.isEmpty then 0
      else jsMax (a.predecessors.map (predEF s)) := rfl

theorem fwdF_ef_eq (s : List PERTActivity) (a : PERTActivity) :
    (fwdF s a).ef = (fwdF s a).es + a.mean := rfl

theorem bwdF_lf_eq (m : ℚ) (s : List PERTActivity) (a : PERTActivity) :
    (bwdF m s a).lf =
      if s.all (fun b => !(b.predecessors.contains a.activity)) then m
      else jsMin ((s.filter (fun b => b.predecessors.contains a.activity)).map
                  (fun b => b.ls)) := rfl

theorem bwdF_ls_eq (m : ℚ) (s : List PERTActivity) (a : PERTActivity) :
    (bwdF m s a).ls = (bwdF m s a).lf - a.mean := rfl

/-! Structure of the engine as the composite of the two passes. -/

theorem calculatePERT_eq (l : List Activity) :
    calculatePERT l = (bwdList l).map critF := rfl

theorem length_initPA (l : List Activity) : (initPA l).length = l.length :=
  List.length_map _ _

theorem length_fwdList (l : List Activity) : (fwdList l).length = l.length := by
  rw [fwdList, length_runPass, length_initPA]

theorem length_revList (l : List Activity) : (revList l).length = l.length := by
  rw [revList, List.length_reverse, length_fwdList]

theorem length_bwdList (l : List Activity) : (bwdList l).length = l.length := by
  rw [bwdList, length_runPass, length_revList]

theorem length_calculatePERT (l : List Activity) :
    (calculatePERT l).length = l.length := by
  rw [calculatePERT_eq, List.length_map, length_bwdList]

theorem initPA_get?_toActivity (l : List Activity) (k : Nat) :
    ((initPA l).get? k).map (fun a => a.toActivity) = l.get? k := by
  rw [initPA, List.get?_map]
  cases l.get? k <;> rfl

theorem fstate_get?_toActivity (l : List Activity) (n k : Nat) :
    ((fstate l n).get? k).map (fun a => a.toActivity) = l.get? k := by
  rw [fstate, stepFold_get?_field fwdF _ fwdF_toActivity, initPA_get?_toActivity]

theorem fwdList_get?_toActivity (l : List Activity) (k : Nat) :
    ((fwdList l).get? k).map (fun a => a.toActivity) = l.get? k := by
  rw [fwdList, runPass_get?_field fwdF _ fwdF_toActivity, initPA_get?_toActivity]

theorem revList_get?_toActivity (l : List Activity) {j : Nat} (hj : j < l.length) :
    ((revList l).get? j).map (fun a => a.toActivity) = l.get? (l.length - 1 - j) := by
  have hj' : j < (fwdList l).length := by rw [length_fwdList]; exact hj
  rw [revList, List.get?_reverse hj', length_fwdList, fwdList_get?_toActivity]

theorem bstate_get?_toActivity (l : List Activity) (n : Nat) {j : Nat}
    (hj : j < l.length) :
    ((bstate l n).get? j).map (fun a => a.toActivity) = l.get? (l.length - 1 - j) := by
  rw [bstate, stepFold_get?_field (bwdF (maxEFv l)) _ (bwdF_toActivity (maxEFv l)),
    revList_get?_toActivity l hj]

theorem bwdList_get? (l : List Activity) {j : Nat} {b : PERTActivity}
    (hb : (revList l).get? j = some b) :
    (bwdList l).get? j = some (bwdF (maxEFv l) (bstate l j) b) :=
  runPass_get? (bwdF (maxEFv l)) hb

theorem revList_get?_fwdF (l : List Activity) {j : Nat} {b : PERTActivity}
    (hb : (revList l).get? j = some b) :
    ∃ k c, (initPA l).get? k = some c ∧ b = fwdF (fstate l k) c := by
  have hj : j < (revList l).length := (List.get?_eq_some.mp hb).1
  have hj' : j < (fwdList l).length := by
    rw [length_fwdList]; rw [length_revList] at hj; exact hj
  have hrev : (revList l).get? j = (fwdList l).get? ((fwdList l).length - 1 - j) := by
    rw [revList]; exact List.get?_reverse hj'
  have hk : (fwdList l).get? ((fwdList l).length - 1 - j) = some b := by
    rw [← hrev]; exact hb
  have hkl : (fwdList l).length - 1 - j < (initPA l).length := by
    rw [length_initPA, ← length_fwdList]
    omega
  obtain ⟨c, hc⟩ : ∃ c, (initPA l).get? ((fwdList l).length - 1 - j) = some c := by
    cases hcc : (initPA l).get? ((fwdList l).length - 1 - j) with
    | none => exact absurd (List.get?_eq_none.mp hcc) (Nat.not_le.mpr hkl)
    | some c => exact ⟨c, rfl⟩
  have hrun : (fwdList l).get? ((fwdList l).length - 1 - j) =
      some (fwdF (fstate l ((fwdList l).length - 1 - j)) c) :=
    runPass_get? fwdF hc
  refine ⟨(fwdList l).length - 1 - j, c, hc, ?_⟩
  rw [hk] at hrun
  exact Option.some.inj hrun

theorem mem_calculatePERT (l : List Activity) {a : PERTActivity}
    (ha : a ∈ calculatePERT l) :
    ∃ j b, (revList l).get? j = some b ∧
      a = critF (bwdF (maxEFv l) (bstate l j) b) := by
  rw [calculatePERT_eq] at ha
  rcases List.mem_map.mp ha with ⟨y, hy, hya⟩
  rcases List.mem_iff_get?.mp hy with ⟨j, hj⟩
  have hjl : j < (revList l).length := by
    have hh := (List.get?_eq_some.mp hj).1
    rw [length_bwdList] at hh
    rw [length_revList]
    exact hh
  obtain ⟨b, hb⟩ : ∃ b, (revList l).get? j = some b := by
    cases hrb : (revList l).get? j with
    | none => exact absurd (List.get?_eq_none.mp hrb) (Nat.not_le.mpr hjl)
    | some b => exact ⟨b, rfl⟩
  have hbl := bwdList_get? l hb
  rw [hj] at hbl
  exact ⟨j, b, hb, by rw [← hya, Option.some.inj hbl]⟩

theorem calculatePERT_map_toActivity (l : List Activity) :
    (calculatePERT l).map (fun a => a.toActivity) = l.reverse := by
  rw [calculatePERT_eq, List.map_map]
  have h1 : ((fun a : PERTActivity => a.toActivity) ∘ critF) =
      fun a : PERTActivity => a.toActivity := funext fun a => rfl
  rw [h1, bwdList,
    runPass_map_field (bwdF (maxEFv l)) _ (bwdF_toActivity (maxEFv l)) (revList l),
    revList, List.map_reverse, fwdList,
    runPass_map_field fwdF _ fwdF_toActivity (initPA l), initPA, List.map_map]
  have h2 : ((fun a : PERTActivity => a.toActivity) ∘ fun a : Activity =>
      ({ toActivity := a, es := 0, ef := 0, ls := 0, lf := 0,
         isCritical := false } : PERTActivity)) = fun a : Activity => a :=
    funext fun a => rfl
  rw [h2]
  simp

theorem resolve_eq_head_filter (name : String) :
    ∀ l : List PERTActivity,
      resolve l name = (l.filter (fun b => b.activity == name)).head?
  | [] => rfl
  | a :: t => by
      cases h : a.activity == name
      · rw [resolve, List.find?_cons, List.filter_cons, h]
        simp only [Bool.false_eq_true, if_false]
        exact resolve_eq_head_filter name t
      · simp [resolve, List.find?_cons, List.filter_cons, h]

/-- Claim C8: when a predecessor name matches more than one activity
(duplicate names), name resolution returns exactly the first matching
activity in list order (the head of the filtered list), and the value a
predecessor name contributes to the forward pass is the earliest finish
of that same first match (0 when there is none); the edge builder resolves
with the same function, so this single deterministic choice governs every
place a name is resolved. -/
theorem claim_C8_first_match (l : List PERTActivity) (name : String) :
    resolve l name = (l.filter (fun b => b.activity == name)).head? ∧
    predEF l name =
      ((l.filter (fun b => b.activity == name)).head?.map (fun b => b.ef)).getD 0 := by
  refine ⟨resolve_eq_head_filter name l, ?_⟩
  rw [predEF, resolve_eq_head_filter name l]
  cases (l.filter (fun b => b.activity == name)).head? <;> rfl

unseal Rat.add Rat.sub Rat.mul Rat.inv in
/-- Claim C10: the schedule list returned by calculatePERT carries exactly
the input activities (same length, same ids) in the reverse of the input
list order, because the backward pass reverses the working array in place
and the reversed array is what is returned. -/
theorem claim_C10_reversed_output (l : List Activity) :
    (calculatePERT l).map (fun a => a.id) = (l.map (fun a => a.id)).reverse ∧
    (calculatePERT l).length = l.length := by
  refine ⟨?_, length_calculatePERT l⟩
  have h1 : (calculatePERT l).map (fun a => a.id) =
      ((calculatePERT l).map (fun a => a.toActivity)).map (fun a => a.id) := by
    rw [List.map_map]; rfl
  rw [h1, calculatePERT_map_toActivity, List.map_reverse]

unseal Rat.add Rat.sub Rat.mul Rat.inv in
/-- Claim C1 (code behaviour at the failing input): on the two-activity
cycle A-B-A the engine does not detect the cycle and has no error
outcome; it returns a complete two-entry schedule computed from stale
zero finish times, with negative latest times. -/
theorem claim_C1_cycle_schedule :
    acyclicB cycIn = false ∧
    calculatePERT cycIn =
      [⟨mkAct "2" "B" ["A"] 1, 1, 2, -1, 0, false⟩,
       ⟨mkAct "1" "A" ["B"] 1, 0, 1, -2, -1, false⟩] := by decide

unseal Rat.add Rat.sub Rat.mul Rat.inv in
/-- Claim C2 (code behaviour at the failing input): on an acyclic input
listed against dependency order, the schedule contains an activity with
ES = 0 and LS = -5, so slack is negative and ES is not at most LS. -/
theorem claim_C2_negative_slack :
    acyclicB negSlackIn = true ∧
    calculatePERT negSlackIn =
      [⟨mkAct "2" "A" [] 5, 0, 5, -5, 0, false⟩,
       ⟨mkAct "1" "B" ["A"] 1, 0, 1, 4, 5, false⟩] ∧
    ¬ (∀ a ∈ calculatePERT negSlackIn, a.es ≤ a.ls ∧ a.ef ≤ a.lf) := by decide

unseal Rat.add Rat.sub Rat.mul Rat.inv in
/-- Claim C3 (code behaviour at the failing input): on an acyclic input
listed against dependency order, the forward pass reads the stale zero
finish time of the not-yet-processed predecessor A, so the non-root B
gets ES = 0 although the earliest finish its one resolvable predecessor
ends up with is 2. -/
theorem claim_C3_stale_forward :
    acyclicB staleIn = true ∧
    calculatePERT staleIn =
      [⟨mkAct "2" "A" [] 2, 0, 2, -2, 0, false⟩,
       ⟨mkAct "1" "B" ["A"] 1, 0, 1, 1, 2, false⟩] ∧
    predEF (calculatePERT staleIn) "A" = 2 := by decide

unseal Rat.add Rat.sub Rat.mul Rat.inv in
/-- Claim C5: on the diamond scenario (A feeds B and C, both feed D,
means 1, 2, 3, 1, listed A, B, C, D) the engine computes A ES/EF = (0,1),
B ES/EF = (1,3), C ES/EF = (1,4), D ES = 4 and EF = 5, project duration
5, and marks exactly A, C, D critical while B keeps one unit of slack
(LS - ES = 2 - 1); the returned list is in reversed input order. -/
theorem claim_C5_diamond :
    calculatePERT diamondIn =
      [⟨mkAct "4" "D" ["B", "C"] 1, 4, 5, 4, 5, true⟩,
       ⟨mkAct "3" "C" ["A"] 3, 1, 4, 1, 4, true⟩,
       ⟨mkAct "2" "B" ["A"] 2, 1, 3, 2, 4, false⟩,
       ⟨mkAct "1" "A" [] 1, 0, 1, 0, 1, true⟩] ∧
    jsMax ((calculatePERT diamondIn).map (fun a => a.ef)) = 5 := by decide

/-- Claim C6: every activity of every computed schedule satisfies
EF = ES + mean and LS = LF - mean; the forward pass writes ef as es plus
mean in the same step, the backward pass writes ls as lf minus mean in
the same step, and no later step rewrites those fields.  This holds for
every input, in particular every acyclic one. -/
theorem claim_C6_local_invariants (l : List Activity) {a : PERTActivity}
    (ha : a ∈ calculatePERT l) :
    a.ef = a.es + a.mean ∧ a.ls = a.lf - a.mean := by
  rcases mem_calculatePERT l ha with ⟨j, b, hb, rfl⟩
  rcases revList_get?_fwdF l hb with ⟨k, c, hc, rfl⟩
  constructor
  · rw [critF_ef, bwdF_ef, critF_es, bwdF_es, fwdF_ef_eq]
    rfl
  · rw [critF_ls, critF_lf, bwdF_ls_eq]
    rfl

unseal Rat.add Rat.sub Rat.mul Rat.inv in
/-- Witness for claim C6 at a concrete schedule entry. -/
theorem claim_C6_local_invariants_witness :
    (⟨mkAct "2" "B" ["A"] 3, 2, 5, 2, 5, true⟩ : PERTActivity) ∈ calculatePERT invIn ∧
    (5 : ℚ) = 2 + 3 ∧ (2 : ℚ) = 5 - 3 := by
  refine ⟨by decide, ?_⟩
  exact @claim_C6_local_invariants invIn ⟨mkAct "2" "B" ["A"] 3, 2, 5, 2, 5, true⟩
    (by decide)

/-- Claim C7: an activity whose predecessor names all resolve to no
activity of the snapshot is scheduled as a root (ES = 0) and the engine
still returns a schedule entry for every input activity; it neither
crashes nor aborts (it is a total function). -/
theorem claim_C7_dangling_root (l : List Activity) :
    (∀ a ∈ calculatePERT l,
      (∀ p ∈ a.predecessors, ∀ b ∈ l, b.activity ≠ p) → a.es = 0) ∧
    (calculatePERT l).length = l.length := by
  refine ⟨?_, length_calculatePERT l⟩
  intro a ha hdang
  rcases mem_calculatePERT l ha with ⟨j, b, hb, rfl⟩
  rcases revList_get?_fwdF l hb with ⟨k, c, hc, rfl⟩
  rw [critF_es, bwdF_es, fwdF_es_eq]
  have hpred : (critF (bwdF (maxEFv l) (bstate l j)
      (fwdF (fstate l k) c))).predecessors = c.predecessors := rfl
  rw [hpred] at hdang
  by_cases hemp : c.predecessors.isEmpty
  · rw [if_pos hemp]
  · rw [if_neg hemp]
    have hz : ∀ p ∈ c.predecessors, predEF (fstate l k) p = 0 := by
      intro p hp
      have hnone : resolve (fstate l k) p = none := by
        rw [resolve, List.find?_eq_none]
        intro x hx
        rcases List.mem_iff_get?.mp hx with ⟨m, hm⟩
        have hsta := fstate_get?_toActivity l k m
        rw [hm] at hsta
        have hxm : x.toActivity ∈ l := List.get?_mem hsta.symm
        have hne := hdang p hp x.toActivity hxm
        simp only [beq_iff_eq]
        exact hne
      rw [predEF, hnone]
    have hnonnil : c.predecessors.map (predEF (fstate l k)) ≠ [] := by
      intro hcon
      exact hemp (by rw [List.isEmpty_iff]; exact List.map_eq_nil.mp hcon)
    obtain ⟨x, hx⟩ := List.exists_mem_of_ne_nil _ hnonnil
    have hx0 : x = 0 := by
      rcases List.mem_map.mp hx with ⟨p, hp, rfl⟩
      exact hz p hp
    refine jsMax_eq_of ?_ ?_
    · rw [← hx0]; exact hx
    · intro y hy
      rcases List.mem_map.mp hy with ⟨q, hq, rfl⟩
      rw [hz q hq]

unseal Rat.add Rat.sub Rat.mul Rat.inv in
/-- Witness for claim C7 at an input whose only activity names a
nonexistent predecessor. -/
theorem claim_C7_dangling_root_witness :
    (⟨mkAct "1" "A" ["Z"] 1, 0, 1, 0, 1, true⟩ : PERTActivity) ∈ calculatePERT dangIn ∧
    (⟨mkAct "1" "A" ["Z"] 1, 0, 1, 0, 1, true⟩ : PERTActivity).es = 0 ∧
    (calculatePERT dangIn).length = dangIn.length := by
  have h := claim_C7_dangling_root dangIn
  refine ⟨by decide, ?_, h.2⟩
  exact h.1 ⟨mkAct "1" "A" ["Z"] 1, 0, 1, 0, 1, true⟩ (by decide) (by decide)

/-- Claim C9: the assembled graph contains one marked node per scheduled
activity, an edge from the synthetic start node to every activity with an
empty predecessor set (a root in the sense of the graph builder), an edge
predecessor-to-activity for every predecessor name that resolves, and an
edge to the synthetic end node from every activity that no activity names
as predecessor (a leaf); a dependency edge is marked critical exactly
when both endpoint activities are critical, and a start or end edge
exactly when the adjacent activity is. -/
theorem claim_C9_graph_assembly (l : List Activity) :
    (∀ a ∈ calculatePERT l,
      (⟨a.id, a.isCritical⟩ : GNode) ∈ (createNodesAndEdges l).1) ∧
    (∀ a ∈ calculatePERT l, a.predecessors = [] →
      (⟨"start-" ++ a.id, "start", a.id, a.isCritical⟩ : GEdge) ∈
        (createNodesAndEdges l).2) ∧
    (∀ a ∈ calculatePERT l, ∀ p ∈ a.predecessors, ∀ s,
      resolve (calculatePERT l) p = some s →
      (⟨s.id ++ "-" ++ a.id, s.id, a.id, a.isCritical && s.isCritical⟩ : GEdge) ∈
        (createNodesAndEdges l).2) ∧
    (∀ a ∈ calculatePERT l,
      (∀ b ∈ calculatePERT l, a.activity ∉ b.predecessors) →
      (⟨a.id ++ "-end", a.id, "end", a.isCritical⟩ : GEdge) ∈
        (createNodesAndEdges l).2) := by
  have h1 : (createNodesAndEdges l).1 =
      (⟨"start", false⟩ : GNode) ::
        ((calculatePERT l).map (fun a => (⟨a.id, a.isCritical⟩ : GNode)) ++
          [⟨"end", false⟩]) := rfl
  have h2 : (createNodesAndEdges l).2 =
      ((calculatePERT l).flatMap (fun a =>
        if a.predecessors.isEmpty then
          [(⟨"start-" ++ a.id, "start", a.id, a.isCritical⟩ : GEdge)]
        else
          a.predecessors.filterMap (fun pred =>
            (resolve (calculatePERT l) pred).map (fun s =>
              (⟨s.id ++ "-" ++ a.id, s.id, a.id,
                a.isCritical && s.isCritical⟩ : GEdge))))) ++
      ((calculatePERT l).filterMap (fun a =>
        if (calculatePERT l).all (fun b => !(b.predecessors.contains a.activity)) then
          some (⟨a.id ++ "-end", a.id, "end", a.isCritical⟩ : GEdge)
        else none)) := rfl
  refine ⟨?_, ?_, ?_, ?_⟩
  · intro a ha
    rw [h1]
    exact List.mem_cons_of_mem _
      (List.mem_append_left _ (List.mem_map_of_mem _ ha))
  · intro a ha hroot
    rw [h2]
    apply List.mem_append_left
    apply List.mem_flatMap.mpr
    refine ⟨a, ha, ?_⟩
    have hemp : a.predecessors.isEmpty = true := by rw [hroot]; rfl
    rw [if_pos hemp]
    exact List.mem_singleton_self _
  · intro a ha p hp s hs
    rw [h2]
    apply List.mem_append_left
    apply List.mem_flatMap.mpr
    refine ⟨a, ha, ?_⟩
    have hemp : ¬ a.predecessors.isEmpty = true := by
      rw [List.isEmpty_iff]
      exact List.ne_nil_of_mem hp
    rw [if_neg hemp]
    apply List.mem_filterMap.mpr
    exact ⟨p, hp, by rw [hs]; rfl⟩
  · intro a ha hleaf
    rw [h2]
    apply List.mem_append_right
    apply List.mem_filterMap.mpr
    refine ⟨a, ha, ?_⟩
    have hcond : (calculatePERT l).all
        (fun b => !(b.predecessors.contains a.activity)) = true := by
      rw [List.all_eq_true]
      intro b hb
      have := hleaf b hb
      simp only [Bool.not_eq_true']
      rw [← Bool.not_eq_true]
      intro hcon
      exact this (List.elem_iff.mp hcon)
    rw [if_pos hcond]

unseal Rat.add Rat.sub Rat.mul Rat.inv in
/-- Witness for claim C9 on a two-activity chain: the start edge to the
root A, the dependency edge A to B, and the end edge from the leaf B are
all present, each marked critical since both activities are critical. -/
theorem claim_C9_graph_assembly_witness :
    (⟨"start-1", "start", "1", true⟩ : GEdge) ∈ (createNodesAndEdges graphIn).2 ∧
    (⟨"1-2", "1", "2", true⟩ : GEdge) ∈ (createNodesAndEdges graphIn).2 ∧
    (⟨"2-end", "2", "end", true⟩ : GEdge) ∈ (createNodesAndEdges graphIn).2 := by
  have h := claim_C9_graph_assembly graphIn
  refine ⟨?_, ?_, ?_⟩
  · exact h.2.1 ⟨mkAct "1" "A" [] 1, 0, 1, 0, 1, true⟩ (by decide) (by decide)
  · exact h.2.2.1 ⟨mkAct "2" "B" ["A"] 1, 1, 2, 1, 2, true⟩ (by decide) "A"
      (by decide) ⟨mkAct "1" "A" [] 1, 0, 1, 0, 1, true⟩ (by decide)
  · exact h.2.2.2 ⟨mkAct "2" "B" ["A"] 1, 1, 2, 1, 2, true⟩ (by decide) (by decide)

/-! Acyclicity of the resolved dependency graph forces a sink: an
activity whose name no activity lists as a predecessor.  Were every node
to have an outgoing resolved edge, following edges for length-many steps
would revisit a node and exhibit a cycle inside the bounded reachability
check. -/

theorem reachesWithin_zero (l : List Activity) (i j : Nat) :
    reachesWithin l 0 i j = depEdgeB l i j := rfl

theorem reachesWithin_succ (l : List Activity) (k i j : Nat) :
    reachesWithin l (k + 1) i j =
      (depEdgeB l i j ||
        (List.range l.length).any
          (fun m => depEdgeB l i m && reachesWithin l k m j)) := rfl

theorem reachesWithin_succ_of (l : List Activity) {k i j : Nat}
    (h : reachesWithin l k i j = true) : reachesWithin l (k + 1) i j = true := by
  induction k generalizing i with
  | zero =>
      rw [reachesWithin_zero] at h
      rw [reachesWithin_succ, h]
      rfl
  | succ k ih =>
      rw [reachesWithin_succ] at h
      rw [reachesWithin_succ]
      simp only [Bool.or_eq_true] at h
      simp only [Bool.or_eq_true]
      rcases h with h1 | h1
      · left; exact h1
      · rcases List.any_eq_true.mp h1 with ⟨m, hm, hand⟩
        simp only [Bool.and_eq_true] at hand
        right
        refine List.any_eq_true.mpr ⟨m, hm, ?_⟩
        simp only [Bool.and_eq_true]
        exact ⟨hand.1, ih hand.2⟩

theorem reachesWithin_mono (l : List Activity) {k kk i j : Nat} (hkk : k ≤ kk)
    (h : reachesWithin l k i j = true) : reachesWithin l kk i j = true := by
  induction kk with
  | zero =>
      rw [Nat.le_zero.mp hkk] at h
      exact h
  | succ kk ih =>
      rcases Nat.lt_or_ge k (kk + 1) with h1 | h1
      · exact reachesWithin_succ_of l (ih (Nat.lt_succ_iff.mp h1))
      · rw [Nat.le_antisymm hkk h1] at h
        exact h

theorem depEdgeB_lt (l : List Activity) {i j : Nat} (h : depEdgeB l i j = true) :
    j < l.length := by
  cases hj : l.get? j with
  | none =>
      have hfls : depEdgeB l i j = false := by
        unfold depEdgeB
        rw [hj]
      rw [hfls] at h
      exact Bool.noConfusion h
  | some a => exact (List.get?_eq_some.mp hj).1

theorem findIdxName_some_name (l : List Activity) {p : String} {k : Nat}
    (h : findIdxName l p = some k) :
    ∃ a, l.get? k = some a ∧ a.activity = p := by
  rw [findIdxName] at h
  rcases List.findIdx?_eq_some_iff_getElem.mp h with ⟨hk, hpk, _⟩
  refine ⟨l.get ⟨k, hk⟩, ?_, ?_⟩
  · rw [List.get?_eq_some]
    exact ⟨hk, rfl⟩
  · exact beq_iff_eq.mp hpk

theorem findIdxName_eq_some_self (l : List Activity)
    (hnodup : (l.map (fun a => a.activity)).Nodup)
    {i : Nat} {a : Activity} (hi : l.get? i = some a) :
    findIdxName l a.activity = some i := by
  have hex : ∃ x, x ∈ l ∧ ((x.activity == a.activity) = true) :=
    ⟨a, List.get?_mem hi, by simp⟩
  have h1 : findIdxName l a.activity =
      some (l.findIdx (fun b => b.activity == a.activity)) := by
    rw [findIdxName]
    exact List.findIdx?_eq_some_of_exists hex
  rcases findIdxName_some_name l h1 with ⟨c, hc, hcn⟩
  have hmi : (l.map (fun a => a.activity)).get? i = some a.activity := by
    rw [List.get?_map, hi]
    rfl
  have hmk : (l.map (fun a => a.activity)).get?
      (l.findIdx (fun b => b.activity == a.activity)) = some a.activity := by
    rw [List.get?_map, hc]
    simp [hcn]
  have hil : i < (l.map (fun a => a.activity)).length := by
    rw [List.length_map]
    exact (List.get?_eq_some.mp hi).1
  have hieq : i = l.findIdx (fun b => b.activity == a.activity) :=
    List.get?_inj hil hnodup (hmi.trans hmk.symm)
  rw [h1, ← hieq]

theorem depEdgeB_of_pred (l : List Activity)
    (hnodup : (l.map (fun a => a.activity)).Nodup)
    {i m : Nat} {a c : Activity}
    (hi : l.get? i = some a) (hm : l.get? m = some c)
    (hp : a.activity ∈ c.predecessors) :
    depEdgeB l i m = true := by
  have hred : depEdgeB l i m =
      c.predecessors.any (fun p => findIdxName l p == some i) := by
    unfold depEdgeB
    rw [hm]
  rw [hred]
  apply List.any_eq_true.mpr
  refine ⟨a.activity, hp, ?_⟩
  rw [findIdxName_eq_some_self l hnodup hi]
  simp

theorem exists_sink (l : List Activity) (hlen : 0 < l.length)
    (hacyc : acyclicB l = true) :
    ∃ i, i < l.length ∧ ∀ j, depEdgeB l i j = false := by
  by_contra hcon
  push_neg at hcon
  have hf : ∀ i : Fin l.length, ∃ jf : Fin l.length,
      depEdgeB l i.val jf.val = true := by
    intro i
    rcases hcon i.val i.isLt with ⟨j, hj⟩
    have hjt : depEdgeB l i.val j = true := Bool.ne_false_iff.mp hj
    exact ⟨⟨j, depEdgeB_lt l hjt⟩, hjt⟩
  choose f hfe using hf
  have reachIter : ∀ k s : Nat,
      reachesWithin l k (f^[s] ⟨0, hlen⟩).val (f^[s + k + 1] ⟨0, hlen⟩).val = true := by
    intro k
    induction k with
    | zero =>
        intro s
        rw [reachesWithin_zero, Function.iterate_succ_apply']
        exact hfe (f^[s] ⟨0, hlen⟩)
    | succ k ih =>
        intro s
        rw [reachesWithin_succ]
        simp only [Bool.or_eq_true]
        right
        apply List.any_eq_true.mpr
        refine ⟨(f^[s + 1] ⟨0, hlen⟩).val,
          List.mem_range.mpr (f^[s + 1] ⟨0, hlen⟩).isLt, ?_⟩
        simp only [Bool.and_eq_true]
        constructor
        · rw [Function.iterate_succ_apply']
          exact hfe (f^[s] ⟨0, hlen⟩)
        · have harith : s + 1 + k + 1 = s + (k + 1) + 1 := by omega
          have hih := ih (s + 1)
          rw [harith] at hih
          exact hih
  have key : ∀ u v : Nat, u < v → v ≤ l.length →
      f^[u] ⟨0, hlen⟩ = f^[v] ⟨0, hlen⟩ → False := by
    intro u v huv hvn heq
    have hk := reachIter (v - u - 1) u
    have harith : u + (v - u - 1) + 1 = v := by omega
    rw [harith, ← heq] at hk
    have hmono : reachesWithin l l.length
        (f^[u] ⟨0, hlen⟩).val (f^[u] ⟨0, hlen⟩).val = true :=
      reachesWithin_mono l (by omega) hk
    rw [acyclicB, List.all_eq_true] at hacyc
    have hcontra := hacyc (f^[u] ⟨0, hlen⟩).val
      (List.mem_range.mpr (f^[u] ⟨0, hlen⟩).isLt)
    rw [hmono] at hcontra
    exact absurd hcontra (by simp)
  obtain ⟨a, b, hab, hgab⟩ :=
    Fintype.exists_ne_map_eq_of_card_lt
      (fun k : Fin (l.length + 1) => f^[k.val] ⟨0, hlen⟩)
      (by simp)
  rcases Nat.lt_or_ge a.val b.val with h1 | h1
  · exact key a.val b.val h1 (Nat.lt_succ_iff.mp b.isLt) hgab
  · rcases Nat.lt_or_eq_of_le h1 with h2 | h2
    · exact key b.val a.val h2 (Nat.lt_succ_iff.mp a.isLt) hgab.symm
    · exact hab (Fin.ext h2.symm)

/-! The forward pass writes only non-negative times when every mean is
non-negative, whatever the list order: a stale read contributes 0 and a
finished read contributes an earlier non-negative earliest finish.  The
latest-start field is untouched by the forward pass, so the backward pass
starts from zero latest starts. -/

theorem passUpd_eq_of_get?_some (f : List PERTActivity → PERTActivity → PERTActivity)
    (l : List PERTActivity) {i : Nat} {a : PERTActivity} (h : l.get? i = some a) :
    passUpd f l i = l.set i (f l a) := by
  rw [passUpd, h]

theorem passUpd_eq_of_get?_none (f : List PERTActivity → PERTActivity → PERTActivity)
    (l : List PERTActivity) {i : Nat} (h : l.get? i = none) :
    passUpd f l i = l := by
  rw [passUpd, h]

theorem fwdF_ls (s : List PERTActivity) (a : PERTActivity) :
    (fwdF s a).ls = a.ls := rfl

theorem fwdList_eq_fstate (l : List Activity) :
    fwdList l = fstate l l.length := by
  rw [fwdList, fstate, runPass, stepFold, length_initPA]

theorem fstate_nonneg (l : List Activity) (hmean : ∀ a ∈ l, 0 ≤ a.mean) :
    ∀ k, ∀ x ∈ fstate l k, 0 ≤ x.es ∧ 0 ≤ x.ef := by
  intro k
  induction k with
  | zero =>
      intro x hx
      rw [fstate, stepFold_zero, initPA] at hx
      rcases List.mem_map.mp hx with ⟨a, _, rfl⟩
      exact ⟨le_refl 0, le_refl 0⟩
  | succ k ih =>
      intro x hx
      rw [fstate, stepFold_succ] at hx
      change x ∈ passUpd fwdF (fstate l k) k at hx
      cases hk : (fstate l k).get? k with
      | none =>
          rw [passUpd_eq_of_get?_none fwdF _ hk] at hx
          exact ih x hx
      | some a =>
          rw [passUpd_eq_of_get?_some fwdF _ hk] at hx
          rcases List.mem_or_eq_of_mem_set hx with h | h
          · exact ih x h
          · subst h
            have hes : 0 ≤ (fwdF (fstate l k) a).es := by
              rw [fwdF_es_eq]
              by_cases hemp : a.predecessors.isEmpty
              · rw [if_pos hemp]
              · rw [if_neg hemp]
                have hnil : a.predecessors ≠ [] := by
                  intro hcc
                  apply hemp
                  rw [hcc]
                  rfl
                have hall : ∀ q : String, 0 ≤ predEF (fstate l k) q := by
                  intro q
                  rw [predEF]
                  cases hr : resolve (fstate l k) q with
                  | none => exact le_refl 0
                  | some b => exact (ih b (List.mem_of_find?_eq_some hr)).2
                obtain ⟨p, ps, hps⟩ := List.exists_cons_of_ne_nil hnil
                have hmem : predEF (fstate l k) p ∈
                    a.predecessors.map (predEF (fstate l k)) := by
                  rw [hps, List.map_cons]
                  exact List.mem_cons_self _ _
                exact le_trans (hall p) (le_jsMax hmem)
            refine ⟨hes, ?_⟩
            rw [fwdF_ef_eq]
            have hsta := fstate_get?_toActivity l k k
            rw [hk] at hsta
            have hma : 0 ≤ a.mean := hmean a.toActivity (List.get?_mem hsta.symm)
            linarith

theorem maxEFv_nonneg (l : List Activity) (hlen : 0 < l.length)
    (hmean : ∀ a ∈ l, 0 ≤ a.mean) : 0 ≤ maxEFv l := by
  have hnn : (fwdList l).map (fun a => a.ef) ≠ [] := by
    intro hcc
    have hlc := congrArg List.length hcc
    rw [List.length_map, length_fwdList, List.length_nil] at hlc
    omega
  have hmem := jsMax_mem hnn
  rcases List.mem_map.mp hmem with ⟨x, hx, hxe⟩
  rw [maxEFv, ← hxe]
  have hx2 : x ∈ fstate l l.length := by
    rw [← fwdList_eq_fstate]
    exact hx
  exact (fstate_nonneg l hmean l.length x hx2).2

theorem revList_ls_zero (l : List Activity) {k : Nat} {x : PERTActivity}
    (h : (revList l).get? k = some x) : x.ls = 0 := by
  have hk : k < (revList l).length := (List.get?_eq_some.mp h).1
  have hk2 : k < (fwdList l).length := by
    rw [length_fwdList]
    rw [length_revList] at hk
    exact hk
  have hrev : (revList l).get? k = (fwdList l).get? ((fwdList l).length - 1 - k) := by
    rw [revList]
    exact List.get?_reverse hk2
  rw [hrev] at h
  have hfield := runPass_get?_field fwdF (fun a => a.ls) fwdF_ls (initPA l)
    ((fwdList l).length - 1 - k)
  have h2 : (runPass fwdF (initPA l)).get? ((fwdList l).length - 1 - k) = some x := h
  rw [h2] at hfield
  rw [initPA, List.get?_map] at hfield
  cases hw : l.get? ((fwdList l).length - 1 - k) with
  | none =>
      rw [hw] at hfield
      simp at hfield
  | some w =>
      rw [hw] at hfield
      simpa using hfield

/-- Backward-pass bound, valid in any list order: every latest finish the
backward pass writes is at most the overall maximum earliest finish,
because the minimum over current latest starts only sees either the
stale zero of a not-yet-processed activity (and 0 is at most the
maximum, means being non-negative) or a finished latest start, itself an
earlier bounded latest finish minus a non-negative mean. -/
theorem bwd_lf_le (l : List Activity)
    (hmean : ∀ a ∈ l, 0 ≤ a.mean) (hmax : 0 ≤ maxEFv l) :
    ∀ j b, (revList l).get? j = some b →
      (bwdF (maxEFv l) (bstate l j) b).lf ≤ maxEFv l := by
  intro j
  induction j using Nat.strong_induction_on with
  | _ j ih =>
    intro b hb
    rw [bwdF_lf_eq]
    by_cases hleaf : (bstate l j).all
        (fun x => !(x.predecessors.contains b.activity)) = true
    · rw [if_pos hleaf]
    · rw [if_neg hleaf]
      have hex : ∃ x ∈ bstate l j, x.predecessors.contains b.activity = true := by
        by_contra hcon
        push_neg at hcon
        apply hleaf
        rw [List.all_eq_true]
        intro x hx
        simp only [Bool.not_eq_true']
        rw [← Bool.not_eq_true]
        exact hcon x hx
      rcases hex with ⟨x, hx, hxc⟩
      have hxmem : x.ls ∈ ((bstate l j).filter
          (fun c => c.predecessors.contains b.activity)).map (fun c => c.ls) :=
        List.mem_map_of_mem _ (List.mem_filter.mpr ⟨hx, hxc⟩)
      refine le_trans (jsMin_le hxmem) ?_
      rcases List.mem_iff_get?.mp hx with ⟨k, hk⟩
      have hkn : k < l.length := by
        have hh := (List.get?_eq_some.mp hk).1
        rw [bstate, length_stepFold, length_revList] at hh
        exact hh
      rcases Nat.lt_or_ge k j with hkj | hkj
      · obtain ⟨c, hcr⟩ : ∃ c, (revList l).get? k = some c := by
          cases hcc : (revList l).get? k with
          | none =>
              exfalso
              have hh := List.get?_eq_none.mp hcc
              rw [length_revList] at hh
              omega
          | some c => exact ⟨c, rfl⟩
        have hturn : (bstate l j).get? k =
            some (bwdF (maxEFv l) (bstate l k) c) := by
          rw [bstate]
          exact stepFold_get?_turn _ _ hkj hcr
        rw [hk] at hturn
        have hxeq : x = bwdF (maxEFv l) (bstate l k) c := Option.some.inj hturn
        have hlfk : (bwdF (maxEFv l) (bstate l k) c).lf ≤ maxEFv l := ih k hkj c hcr
        have hls : x.ls = (bwdF (maxEFv l) (bstate l k) c).lf - c.mean := by
          rw [hxeq, bwdF_ls_eq]
        have hcs := revList_get?_toActivity l hkn
        rw [hcr] at hcs
        have hm := hmean c.toActivity (List.get?_mem hcs.symm)
        rw [hls]
        linarith
      · have hst : (bstate l j).get? k = (revList l).get? k := by
          rw [bstate]
          exact stepFold_get?_of_le _ _ hkj
        rw [hk] at hst
        have hx0 : x.ls = 0 := revList_ls_zero l hst.symm
        rw [hx0]
        exact hmax

/-- Claim C4 (amended): for every input with non-negative means,
pairwise-distinct activity names, and an acyclic resolved dependency
graph, in any list order, the maximum earliest finish over the computed
schedule equals the maximum latest finish.  Only the duplicate-name
degeneracy of the counterexample (which deprives the backward pass of a
leaf) and negative means must be excluded; the list order need not be
topological. -/
theorem claim_C4_maxEF_eq_maxLF (l : List Activity)
    (hmean : ∀ a ∈ l, 0 ≤ a.mean)
    (hnodup : (l.map (fun a => a.activity)).Nodup)
    (hacyc : acyclicB l = true) :
    jsMax ((calculatePERT l).map (fun a => a.ef)) =
    jsMax ((calculatePERT l).map (fun a => a.lf)) := by
  by_cases hne : l = []
  · rw [hne]
    rfl
  have hlen : 0 < l.length := List.length_pos.mpr hne
  have hmax := maxEFv_nonneg l hlen hmean
  have hef : (calculatePERT l).map (fun a => a.ef) =
      ((fwdList l).map (fun a => a.ef)).reverse := by
    rw [calculatePERT_eq, List.map_map]
    have hcompose : ((fun a : PERTActivity => a.ef) ∘ critF) =
        fun a : PERTActivity => a.ef := funext fun a => rfl
    rw [hcompose, bwdList,
      runPass_map_field (bwdF (maxEFv l)) _ (bwdF_ef (maxEFv l)) (revList l),
      revList, List.map_reverse]
  have hLHS : jsMax ((calculatePERT l).map (fun a => a.ef)) = maxEFv l := by
    rw [hef, jsMax_reverse]
    rfl
  refine hLHS.trans (jsMax_eq_of ?_ ?_).symm
  · obtain ⟨i, hi, hsink⟩ := exists_sink l hlen hacyc
    have hj0 : l.length - 1 - i < l.length := by omega
    obtain ⟨b, hb⟩ : ∃ b, (revList l).get? (l.length - 1 - i) = some b := by
      cases hbb : (revList l).get? (l.length - 1 - i) with
      | none =>
          exfalso
          have hh := List.get?_eq_none.mp hbb
          rw [length_revList] at hh
          omega
      | some b => exact ⟨b, rfl⟩
    have hbs := revList_get?_toActivity l hj0
    rw [hb] at hbs
    have hidx : l.length - 1 - (l.length - 1 - i) = i := by omega
    rw [hidx] at hbs
    have hleaf : (bstate l (l.length - 1 - i)).all
        (fun x => !(x.predecessors.contains b.activity)) = true := by
      rw [List.all_eq_true]
      intro x hx
      rcases List.mem_iff_get?.mp hx with ⟨k, hk⟩
      have hkn : k < l.length := by
        have hh := (List.get?_eq_some.mp hk).1
        rw [bstate, length_stepFold, length_revList] at hh
        exact hh
      have hxs := bstate_get?_toActivity l (l.length - 1 - i) hkn
      rw [hk] at hxs
      simp only [Bool.not_eq_true']
      rw [← Bool.not_eq_true]
      intro hxc
      have hmemp : b.activity ∈ x.predecessors := List.elem_iff.mp hxc
      have hedge : depEdgeB l i (l.length - 1 - k) = true :=
        depEdgeB_of_pred l hnodup hbs.symm hxs.symm hmemp
      have hfalse := hsink (l.length - 1 - k)
      rw [hedge] at hfalse
      exact absurd hfalse (by simp)
    have hout : (calculatePERT l).get? (l.length - 1 - i) =
        some (critF (bwdF (maxEFv l) (bstate l (l.length - 1 - i)) b)) := by
      rw [calculatePERT_eq, List.get?_map, bwdList_get? l hb]
      rfl
    have hlf : (critF (bwdF (maxEFv l) (bstate l (l.length - 1 - i)) b)).lf =
        maxEFv l := by
      rw [critF_lf, bwdF_lf_eq, if_pos hleaf]
    rw [← hlf]
    exact List.mem_map_of_mem _ (List.get?_mem hout)
  · intro y hy
    rcases List.mem_map.mp hy with ⟨a, ha, rfl⟩
    rcases mem_calculatePERT l ha with ⟨j, b2, hb2, rfl⟩
    rw [critF_lf]
    exact bwd_lf_le l hmean hmax j b2 hb2

/-- Witness for the amended claim C4, at an acyclic duplicate-free input
listed against dependency order (the successor before its predecessor),
showing the equality needs no topological listing. -/
theorem claim_C4_maxEF_eq_maxLF_witness :
    acyclicB negSlackIn = true ∧
    (negSlackIn.map (fun a => a.activity)).Nodup ∧
    jsMax ((calculatePERT negSlackIn).map (fun a => a.ef)) =
      jsMax ((calculatePERT negSlackIn).map (fun a => a.lf)) :=
  ⟨by decide, by decide,
    claim_C4_maxEF_eq_maxLF negSlackIn (by decide) (by decide) (by decide)⟩

unseal Rat.add Rat.sub Rat.mul Rat.inv in
/-- Claim C4 counterexample: the duplicate-name input dupIn has an
acyclic resolved dependency graph, yet the computed schedule has maximum
earliest finish 2 and maximum latest finish 0, so the claim as stated
(max EF equals max LF for every acyclic input) fails on the code. -/
theorem claim_C4_counterexample :
    acyclicB dupIn = true ∧
    jsMax ((calculatePERT dupIn).map (fun a => a.ef)) = 2 ∧
    jsMax ((calculatePERT dupIn).map (fun a => a.lf)) = 0 ∧
    jsMax ((calculatePERT dupIn).map (fun a => a.ef)) ≠
      jsMax ((calculatePERT dupIn).map (fun a => a.lf)) := by decide

end PERT
